import Mathlib

/-!
Shallow embedding of the vanity-address search engine in `src/main.rs`:
worker candidate processing, the result-writer loop owning the found-set
and the termination flag, the rotating attempt-log writer, and the shared
sequence counter.  Pure functions model each thread's loop body; each
consumer loop is a fold over the list of messages it receives in arrival
order, and each worker loop is structural recursion over the schedule of
termination-flag values it reads.
-/

/-- `MAX_LINES_PER_FILE` from `main.rs` line 11. -/
def MAX_LINES_PER_FILE : Nat := 1000000

/-- Modulus of the `u64` arithmetic used by the shared atomic counter. -/
def U64MOD : Nat := 2 ^ 64

/-- Rust `str::starts_with` on valid UTF-8 strings: the pattern's character
sequence is a prefix of the subject's character sequence. -/
def strStartsWith (s p : String) : Bool := List.isPrefixOf p.data s.data

/-- The `LogMessage` enum (`main.rs` lines 13-28).  `counter` values are
`u64`, embedded as `Nat` (they are produced modulo `U64MOD`). -/
inductive LogMessage where
  | Regular (timeStr : String) (counter : Nat) (publicKey : String) (privateKey : String)
  | Found (timeStr : String) (counter : Nat) (publicKey : String) (privateKey : String)
      (matchedPfx : String)
deriving DecidableEq, Repr

/-- One generated candidate as seen by a worker after key generation,
encoding and timestamping (`main.rs` lines 377-389): its sequence number
and the derived strings. -/
structure Candidate where
  timeStr : String
  counter : Nat
  publicKey : String
  privateKey : String
deriving DecidableEq, Repr

/-- A persisted result line's fields (spec's FoundRecord); `pfx` models the
`matched_prefix` field. -/
structure FoundRecord where
  timeStr : String
  counter : Nat
  publicKey : String
  privateKey : String
  pfx : String
deriving DecidableEq, Repr

/-- Destination of the single message a worker sends for one candidate:
the result channel (`result_tx`) or the attempt-log channel
(`regular_log_tx`). -/
inductive Emission where
  | toResult (m : LogMessage)
  | toAttempt (m : LogMessage)
deriving DecidableEq, Repr

/-- The scan of `target_prefixes` in the worker loop (`main.rs` lines
391-406): first list entry the address starts with, stopping there. -/
def firstMatch (targetPrefixes : List String) (addr : String) : Option String :=
  match targetPrefixes with
  | [] => none
  | p :: rest => if strStartsWith addr p then some p else firstMatch rest addr

/-- One worker-loop iteration's emission for a candidate (`main.rs` lines
391-422): a found-event on the result channel for the first matching
list entry, otherwise a regular record on the attempt-log channel. -/
def workerProcess (targetPrefixes : List String) (c : Candidate) : Emission :=
  match firstMatch targetPrefixes c.publicKey with
  | some p => .toResult (.Found c.timeStr c.counter c.publicKey c.privateKey p)
  | none => .toAttempt (.Regular c.timeStr c.counter c.publicKey c.privateKey)

/-- A worker's loop (`main.rs` lines 367-424): each iteration first reads
`all_found` (the i-th read is `flags[i]`), exits if it is true, otherwise
processes the i-th generated candidate and loops. -/
def workerGo (targetPrefixes : List String) (gen : Nat → Candidate) :
    Nat → List Bool → List Emission
  | _, [] => []
  | i, f :: rest =>
      if f then []
      else workerProcess targetPrefixes (gen i) :: workerGo targetPrefixes gen (i + 1) rest

/-- One `counter.fetch_add(1, Relaxed) + 1` step (`main.rs` line 388) on the
shared `u64` counter: the assigned sequence value and the new stored value
(both `(c + 1) mod 2^64`). -/
def fetchAddInc (c : Nat) : Nat × Nat :=
  ((c + 1) % U64MOD, (c + 1) % U64MOD)

/-- Sequence values assigned by `n` consecutive atomic increments starting
from stored value `c`; atomicity makes the interleaving of all workers a
single total order of such increments. -/
def seqValues (c : Nat) : Nat → List Nat
  | 0 => []
  | n + 1 => (fetchAddInc c).1 :: seqValues (fetchAddInc c).2 n

/-- Sequence number carried by a `LogMessage`. -/
def msgSeq : LogMessage → Nat
  | .Regular _ n _ _ => n
  | .Found _ n _ _ _ => n

/-- Sequence number carried by a worker emission. -/
def emissionSeq : Emission → Nat
  | .toResult m => msgSeq m
  | .toAttempt m => msgSeq m

/-- Rust `format!` padding `{:04}`: decimal digits left-padded with zeros
to width at least 4. -/
def pad4 (n : Nat) : String :=
  String.mk (List.replicate (4 - (toString n).length) '0') ++ toString n

/-- Attempt-log file name `keypairs_{:04}.log` (`main.rs` lines 43, 79). -/
def logFileName (i : Nat) : String := "keypairs_" ++ pad4 i ++ ".log"

/-- The attempt-log line built by the log-writer thread (`main.rs` lines
279-282). -/
def renderRegularLine (timeStr : String) (counter : Nat) (publicKey privateKey : String) :
    String :=
  "[" ++ timeStr ++ "] 序号: " ++ toString counter ++ " | 公钥: " ++ publicKey ++
    " | 私钥: " ++ privateKey

/-- The result-file line built by `ResultWriter::write_result` (`main.rs`
lines 114-117). -/
def renderFoundLine (r : FoundRecord) : String :=
  "[" ++ r.timeStr ++ "] [FOUND] 匹配前缀: " ++ r.pfx ++ " | 序号: " ++ toString r.counter ++
    " | 公钥: " ++ r.publicKey ++ " | 私钥: " ++ r.privateKey

/-- One attempt-log file: the `file_index` it was opened with, the path it
was opened at, and the lines appended to it. -/
structure LogFile where
  idx : Nat
  fname : String
  lines : List String
deriving DecidableEq, Repr

/-- The `LogWriter` state (`main.rs` lines 30-34) plus the history of files
already rotated out, to state properties of every file of the run. -/
structure LogWriterState where
  current : LogFile
  fileIndex : Nat
  lineCount : Nat
  closedFiles : List LogFile
deriving DecidableEq, Repr

/-- `LogWriter::new` (`main.rs` lines 41-57): index 0, empty file, count 0. -/
def logInit : LogWriterState :=
  { current := ⟨0, logFileName 0, []⟩, fileIndex := 0, lineCount := 0, closedFiles := [] }

/-- `LogWriter::rotate_file` (`main.rs` lines 72-91): close the current
file, bump the index, reset the counter, open the next file. -/
def logRotate (s : LogWriterState) : LogWriterState :=
  { current := ⟨s.fileIndex + 1, logFileName (s.fileIndex + 1), []⟩,
    fileIndex := s.fileIndex + 1,
    lineCount := 0,
    closedFiles := s.closedFiles ++ [s.current] }

/-- `LogWriter::write_line` (`main.rs` lines 59-70): append the line, bump
the counter, rotate when the counter reaches `MAX_LINES_PER_FILE`. -/
def logWriteLine (s : LogWriterState) (content : String) : LogWriterState :=
  if MAX_LINES_PER_FILE ≤ s.lineCount + 1 then
    logRotate { s with current := { s.current with lines := s.current.lines ++ [content] },
                       lineCount := s.lineCount + 1 }
  else
    { s with current := { s.current with lines := s.current.lines ++ [content] },
             lineCount := s.lineCount + 1 }

/-- One received message in the log-writer thread (`main.rs` lines
277-293): `Regular` messages are formatted and written, `Found` messages
are ignored on this channel. -/
def logThreadStep (s : LogWriterState) (m : LogMessage) : LogWriterState :=
  match m with
  | .Regular t n pub priv => logWriteLine s (renderRegularLine t n pub priv)
  | .Found _ _ _ _ _ => s

/-- The log-writer thread consuming its channel's messages in arrival
order until closure. -/
def logThreadRun (msgs : List LogMessage) : LogWriterState :=
  msgs.foldl logThreadStep logInit

/-- The result-writer thread's state: records written so far (the
found-prefix set is their `matched_prefix` projection, in insertion
order) and the `all_found` flag. -/
structure ResultState where
  records : List FoundRecord
  allFound : Bool
deriving DecidableEq, Repr

/-- The found-prefix set owned by the result writer, as the list of
recorded prefixes (set membership is list membership). -/
def ResultState.foundSet (s : ResultState) : List String :=
  s.records.map FoundRecord.pfx

/-- One received message in the result-writer thread (`main.rs` lines
309-352): after the flag is set the thread has exited, so the message is
never consumed; duplicate prefixes are discarded; a fresh prefix is
inserted and written, and the flag is set when the found-set's size
reaches the length of `target_prefixes`. -/
def resultStep (targetPrefixes : List String) (s : ResultState) (m : LogMessage) :
    ResultState :=
  if s.allFound then s
  else
    match m with
    | .Regular _ _ _ _ => s
    | .Found t n pub priv p =>
        if p ∈ s.foundSet then s
        else
          let records := s.records ++ [⟨t, n, pub, priv, p⟩]
          { records := records,
            allFound := if targetPrefixes.length ≤ records.length then true else false }

/-- Initial result-writer state. -/
def resultInit : ResultState := { records := [], allFound := false }

/-- The result-writer thread consuming its channel's messages in arrival
order. -/
def resultRun (targetPrefixes : List String) (es : List LogMessage) : ResultState :=
  es.foldl (resultStep targetPrefixes) resultInit

/-- The result-writer loop with fallible writes (`main.rs` lines 305-355):
`io k` tells whether the k-th call to `write_result` succeeds; a failing
write propagates immediately through `?` as an error; channel closure
returns `Ok`; reaching full cardinality stores the flag and breaks with
`Ok`. -/
def rwRun (targetPrefixes : List String) (io : Nat → Bool) :
    ResultState → List LogMessage → Except Unit ResultState
  | s, [] => .ok s
  | s, m :: rest =>
      match m with
      | .Regular _ _ _ _ => rwRun targetPrefixes io s rest
      | .Found t n pub priv p =>
          if p ∈ s.foundSet then rwRun targetPrefixes io s rest
          else
            if io s.records.length then
              let records := s.records ++ [⟨t, n, pub, priv, p⟩]
              if targetPrefixes.length ≤ records.length then
                .ok { records := records, allFound := true }
              else rwRun targetPrefixes io { records := records, allFound := false } rest
            else .error ()

/-- Prefix carried by a found-event, if any. -/
def eventPfx : LogMessage → Option String
  | .Found _ _ _ _ p => some p
  | .Regular _ _ _ _ => none

/-- Prefixes of the found-events of a message list, in order. -/
def foundPfxList (es : List LogMessage) : List String :=
  es.filterMap eventPfx

/-- Number of distinct elements of `ps` that are not in `fs`. -/
def countFresh (fs ps : List String) : Nat :=
  match ps with
  | [] => 0
  | p :: rest => if p ∈ fs then countFresh fs rest else countFresh (p :: fs) rest + 1

/-- Number of distinct elements of a list of prefixes. -/
def distinctCount (ps : List String) : Nat := countFresh [] ps

/-- The record carried by the first found-event for prefix `p` in a message
list, if any. -/
def firstFoundFor (p : String) : List LogMessage → Option FoundRecord
  | [] => none
  | .Found t n pub priv q :: rest =>
      if q = p then some ⟨t, n, pub, priv, q⟩ else firstFoundFor p rest
  | .Regular _ _ _ _ :: rest => firstFoundFor p rest

/-- A found-event is well formed when its public address really starts
with its prefix (what workers guarantee on the result channel). -/
def eventOk : LogMessage → Bool
  | .Found _ _ pub _ p => strStartsWith pub p
  | .Regular _ _ _ _ => true

/-- The attempt-log line format asserted by the spec, with its literal
English field labels. -/
def claimedRegularFormat (line : String) : Prop :=
  ∃ t pub priv, ∃ n : Nat,
    line = "[" ++ t ++ "] sequence: " ++ toString n ++ " | public: " ++ pub ++
      " | private: " ++ priv

/-! ## Worker-loop lemmas -/

/-- The scan only answers a prefix the address really starts with. -/
theorem firstMatch_startsWith (targetPrefixes : List String) (addr p : String)
    (h : firstMatch targetPrefixes addr = some p) : strStartsWith addr p = true := by
  induction targetPrefixes with
  | nil => simp [firstMatch] at h
  | cons q rest ih =>
    by_cases hq : strStartsWith addr q = true
    · simp [firstMatch, hq] at h
      rw [← h]; exact hq
    · simp [firstMatch, hq] at h
      exact ih h

/-- The scan answers the first matching entry, never looking past it. -/
theorem firstMatch_append (pre post : List String) (addr p : String)
    (hpre : ∀ q ∈ pre, strStartsWith addr q = false) (hp : strStartsWith addr p = true) :
    firstMatch (pre ++ p :: post) addr = some p := by
  induction pre with
  | nil => simp [firstMatch, hp]
  | cons q rest ih =>
    have hq : strStartsWith addr q = false := hpre q (by simp)
    simp only [List.cons_append, firstMatch, hq, Bool.false_eq_true, if_false]
    exact ih (fun r hr => hpre r (by simp [hr]))

/-- If some listed entry matches the address, the scan answers something. -/
theorem firstMatch_isSome_of_mem (targetPrefixes : List String) (addr p : String)
    (hmem : p ∈ targetPrefixes) (hp : strStartsWith addr p = true) :
    ∃ q, firstMatch targetPrefixes addr = some q := by
  induction targetPrefixes with
  | nil => cases hmem
  | cons q rest ih =>
    by_cases hq : strStartsWith addr q = true
    · exact ⟨q, by simp [firstMatch, hq]⟩
    · rcases List.mem_cons.mp hmem with h | h
      · rw [← h] at hq; exact absurd hp hq
      · rcases ih h with ⟨r, hr⟩
        exact ⟨r, by simp [firstMatch, hq, hr]⟩

/-- A worker's single emission for a candidate carries the candidate's
sequence number, on either channel. -/
theorem emissionSeq_workerProcess (targetPrefixes : List String) (c : Candidate) :
    emissionSeq (workerProcess targetPrefixes c) = c.counter := by
  unfold workerProcess
  cases firstMatch targetPrefixes c.publicKey <;> rfl

/-- A worker whose flag reads are false for `pre` iterations and then true
exits at that first true read: the rest of the schedule is irrelevant and
exactly `pre.length` candidates were processed. -/
theorem workerGo_stops (targetPrefixes : List String) (gen : Nat → Candidate) :
    ∀ (pre : List Bool) (i : Nat) (post : List Bool), (∀ b ∈ pre, b = false) →
      workerGo targetPrefixes gen i (pre ++ true :: post) =
        workerGo targetPrefixes gen i (pre ++ [true]) ∧
      (workerGo targetPrefixes gen i (pre ++ true :: post)).length = pre.length := by
  intro pre
  induction pre with
  | nil => intro i post _; simp [workerGo]
  | cons b rest ih =>
    intro i post h
    have hb : b = false := h b (by simp)
    subst hb
    have hrest : ∀ x ∈ rest, x = false := fun x hx => h x (by simp [hx])
    rcases ih (i + 1) post hrest with ⟨h1, h2⟩
    refine ⟨?_, ?_⟩
    · show workerProcess targetPrefixes (gen i) ::
          workerGo targetPrefixes gen (i + 1) (rest ++ true :: post) =
        workerProcess targetPrefixes (gen i) ::
          workerGo targetPrefixes gen (i + 1) (rest ++ [true])
      rw [h1]
    · show (workerProcess targetPrefixes (gen i) ::
          workerGo targetPrefixes gen (i + 1) (rest ++ true :: post)).length =
        rest.length + 1
      rw [List.length_cons, h2]

/-! ## Sequence-counter lemmas -/

/-- Closed form of the values assigned by consecutive atomic increments. -/
theorem seqValues_eq_map (n : Nat) :
    ∀ c, seqValues c n = (List.range n).map (fun k => (c + k + 1) % U64MOD) := by
  induction n with
  | zero => intro c; rfl
  | succ n ih =>
    intro c
    rw [List.range_succ_eq_map, List.map_cons, List.map_map]
    have h2 : seqValues (fetchAddInc c).2 n =
        List.map ((fun k => (c + k + 1) % U64MOD) ∘ Nat.succ) (List.range n) := by
      rw [show (fetchAddInc c).2 = (c + 1) % U64MOD from rfl, ih ((c + 1) % U64MOD)]
      apply List.map_congr_left
      intro k _
      simp only [Function.comp_apply, U64MOD]
      omega
    show (fetchAddInc c).1 :: seqValues (fetchAddInc c).2 n = _
    rw [h2]
    simp [fetchAddInc]

/-! ## Result-writer lemmas -/

/-- After the flag is set the writer has exited: a message is not consumed. -/
theorem resultStep_of_allFound (targetPrefixes : List String) (s : ResultState)
    (m : LogMessage) (h : s.allFound = true) : resultStep targetPrefixes s m = s := by
  simp [resultStep, h]

/-- A `Regular` message on the result channel is ignored. -/
theorem resultStep_regular (targetPrefixes : List String) (s : ResultState)
    (t : String) (n : Nat) (pub priv : String) :
    resultStep targetPrefixes s (.Regular t n pub priv) = s := by
  by_cases h : s.allFound <;> simp [resultStep, h]

/-- A found-event whose prefix is already recorded is discarded silently. -/
theorem resultStep_found_dup (targetPrefixes : List String) (s : ResultState)
    (t : String) (n : Nat) (pub priv p : String) (hp : p ∈ s.foundSet) :
    resultStep targetPrefixes s (.Found t n pub priv p) = s := by
  by_cases h : s.allFound <;> simp [resultStep, h, hp]

/-- A found-event with a fresh prefix appends one record and sets the flag
exactly when the found-set's new size reaches the target list's length. -/
theorem resultStep_found_fresh (targetPrefixes : List String) (s : ResultState)
    (t : String) (n : Nat) (pub priv p : String) (h : s.allFound = false)
    (hp : p ∉ s.foundSet) :
    resultStep targetPrefixes s (.Found t n pub priv p) =
      { records := s.records ++ [⟨t, n, pub, priv, p⟩],
        allFound := if targetPrefixes.length ≤ s.records.length + 1 then true else false } := by
  simp [resultStep, h, hp]

/-- Once the flag is set, the whole remaining fold is the identity. -/
theorem resultFold_of_allFound (targetPrefixes : List String) :
    ∀ (es : List LogMessage) (s : ResultState), s.allFound = true →
      es.foldl (resultStep targetPrefixes) s = s := by
  intro es
  induction es with
  | nil => intro s _; rfl
  | cons m rest ih =>
    intro s h
    rw [List.foldl_cons, resultStep_of_allFound targetPrefixes s m h]
    exact ih s h

theorem foundPfxList_cons_regular (t : String) (n : Nat) (pub priv : String)
    (rest : List LogMessage) :
    foundPfxList (.Regular t n pub priv :: rest) = foundPfxList rest := by
  simp [foundPfxList, eventPfx]

theorem foundPfxList_cons_found (t : String) (n : Nat) (pub priv p : String)
    (rest : List LogMessage) :
    foundPfxList (.Found t n pub priv p :: rest) = p :: foundPfxList rest := by
  simp [foundPfxList, eventPfx]

/-- `countFresh` only depends on the membership of its first argument. -/
theorem countFresh_congr :
    ∀ (ps fs₁ fs₂ : List String), (∀ x, x ∈ fs₁ ↔ x ∈ fs₂) →
      countFresh fs₁ ps = countFresh fs₂ ps := by
  intro ps
  induction ps with
  | nil => intro _ _ _; rfl
  | cons p rest ih =>
    intro fs₁ fs₂ h
    show (if p ∈ fs₁ then countFresh fs₁ rest else countFresh (p :: fs₁) rest + 1) =
      (if p ∈ fs₂ then countFresh fs₂ rest else countFresh (p :: fs₂) rest + 1)
    by_cases hp : p ∈ fs₁
    · rw [if_pos hp, if_pos ((h p).mp hp), ih _ _ h]
    · have hp2 : p ∉ fs₂ := fun c => hp ((h p).mpr c)
      rw [if_neg hp, if_neg hp2, ih (p :: fs₁) (p :: fs₂) (fun x => by simp [h x])]

theorem countFresh_le_length : ∀ (ps fs : List String), countFresh fs ps ≤ ps.length := by
  intro ps
  induction ps with
  | nil => intro _; exact Nat.le_refl 0
  | cons p rest ih =>
    intro fs
    show (if p ∈ fs then countFresh fs rest else countFresh (p :: fs) rest + 1) ≤
      rest.length + 1
    by_cases hp : p ∈ fs
    · rw [if_pos hp]
      exact Nat.le_succ_of_le (ih fs)
    · rw [if_neg hp]
      exact Nat.succ_le_succ (ih (p :: fs))

/-- When and only when the flag gets set: starting from an unset flag, the
fold over the received events sets `allFound` exactly when at least one
fresh prefix arrives and the fresh-distinct prefixes received suffice to
bring the found-set's size up to the target list's length. -/
theorem resultFold_allFound_iff (targetPrefixes : List String) :
    ∀ (es : List LogMessage) (s : ResultState), s.allFound = false →
      ((es.foldl (resultStep targetPrefixes) s).allFound = true ↔
        1 ≤ countFresh s.foundSet (foundPfxList es) ∧
        targetPrefixes.length ≤ s.records.length + countFresh s.foundSet (foundPfxList es)) := by
  intro es
  induction es with
  | nil =>
    intro s h
    simp [foundPfxList, countFresh, h]
  | cons m rest ih =>
    intro s h
    cases m with
    | Regular t n pub priv =>
      rw [List.foldl_cons, resultStep_regular, foundPfxList_cons_regular]
      exact ih s h
    | Found t n pub priv p =>
      rw [List.foldl_cons, foundPfxList_cons_found]
      by_cases hp : p ∈ s.foundSet
      · rw [resultStep_found_dup targetPrefixes s t n pub priv p hp]
        have hcf : countFresh s.foundSet (p :: foundPfxList rest) =
            countFresh s.foundSet (foundPfxList rest) := by
          show (if p ∈ s.foundSet then countFresh s.foundSet (foundPfxList rest)
            else countFresh (p :: s.foundSet) (foundPfxList rest) + 1) = _
          rw [if_pos hp]
        rw [hcf]
        exact ih s h
      · rw [resultStep_found_fresh targetPrefixes s t n pub priv p h hp]
        have hcf : countFresh s.foundSet (p :: foundPfxList rest) =
            countFresh (p :: s.foundSet) (foundPfxList rest) + 1 := by
          show (if p ∈ s.foundSet then countFresh s.foundSet (foundPfxList rest)
            else countFresh (p :: s.foundSet) (foundPfxList rest) + 1) = _
          rw [if_neg hp]
        rw [hcf]
        by_cases hlen : targetPrefixes.length ≤ s.records.length + 1
        · rw [if_pos hlen, resultFold_of_allFound targetPrefixes rest _ rfl]
          exact ⟨fun _ => ⟨by omega, by omega⟩, fun _ => rfl⟩
        · rw [if_neg hlen]
          have ihB := ih ⟨s.records ++ [⟨t, n, pub, priv, p⟩], false⟩ rfl
          simp only [ResultState.foundSet, List.map_append, List.map_cons, List.map_nil,
            List.length_append, List.length_cons, List.length_nil] at ihB
          rw [countFresh_congr (foundPfxList rest)
            (List.map FoundRecord.pfx s.records ++ [p]) (p :: List.map FoundRecord.pfx s.records)
            (fun x => by simp [or_comm])] at ihB
          rw [show ({ records := s.records ++ [⟨t, n, pub, priv, p⟩], allFound := false } :
            ResultState) = ⟨s.records ++ [⟨t, n, pub, priv, p⟩], false⟩ from rfl]
          rw [ihB]
          simp only [ResultState.foundSet]
          constructor
          · rintro ⟨a, b⟩
            exact ⟨by omega, by omega⟩
          · rintro ⟨a, b⟩
            exact ⟨by omega, by omega⟩

/-- The fold preserves distinctness of the recorded prefixes. -/
theorem resultFold_nodup (targetPrefixes : List String) :
    ∀ (es : List LogMessage) (s : ResultState),
      (List.map FoundRecord.pfx s.records).Nodup →
      (List.map FoundRecord.pfx ((es.foldl (resultStep targetPrefixes) s)).records).Nodup := by
  intro es
  induction es with
  | nil => intro s hnd; exact hnd
  | cons m rest ih =>
    intro s hnd
    cases hsf : s.allFound with
    | true =>
      rw [resultFold_of_allFound targetPrefixes (m :: rest) s hsf]
      exact hnd
    | false =>
      cases m with
      | Regular t n pub priv =>
        rw [List.foldl_cons, resultStep_regular]
        exact ih s hnd
      | Found t n pub priv p =>
        by_cases hp : p ∈ s.foundSet
        · rw [List.foldl_cons, resultStep_found_dup targetPrefixes s t n pub priv p hp]
          exact ih s hnd
        · rw [List.foldl_cons, resultStep_found_fresh targetPrefixes s t n pub priv p hsf hp]
          apply ih
          simp only [List.map_append, List.map_cons, List.map_nil]
          rw [List.nodup_append]
          refine ⟨hnd, List.nodup_singleton p, ?_⟩
      
          intro x hx hx2
          rw [List.mem_singleton] at hx2
          rw [hx2] at hx
          exact hp hx

/-- Every record in the final state either was already there or stems from
a found-event of the consumed message list carrying exactly its fields. -/
theorem resultFold_origin (targetPrefixes : List String) :
    ∀ (es : List LogMessage) (s : ResultState) (r : FoundRecord),
      r ∈ (es.foldl (resultStep targetPrefixes) s).records →
      r ∈ s.records ∨
        (LogMessage.Found r.timeStr r.counter r.publicKey r.privateKey r.pfx) ∈ es := by
  intro es
  induction es with
  | nil => intro s r hr; exact Or.inl hr
  | cons m rest ih =>
    intro s r hr
    cases hsf : s.allFound with
    | true =>
      rw [resultFold_of_allFound targetPrefixes (m :: rest) s hsf] at hr
      exact Or.inl hr
    | false =>
      cases m with
      | Regular t n pub priv =>
        rw [List.foldl_cons, resultStep_regular] at hr
        rcases ih s r hr with h | h
        · exact Or.inl h
        · exact Or.inr (List.mem_cons_of_mem _ h)
      | Found t n pub priv p =>
        by_cases hp : p ∈ s.foundSet
        · rw [List.foldl_cons, resultStep_found_dup targetPrefixes s t n pub priv p hp] at hr
          rcases ih s r hr with h | h
          · exact Or.inl h
          · exact Or.inr (List.mem_cons_of_mem _ h)
        · rw [List.foldl_cons,
            resultStep_found_fresh targetPrefixes s t n pub priv p hsf hp] at hr
          rcases ih _ r hr with h | h
          · rcases List.mem_append.mp h with h2 | h2
            · exact Or.inl h2
            · rw [List.mem_singleton] at h2
              rw [h2]
              exact Or.inr (List.mem_cons_self _ _)
          · exact Or.inr (List.mem_cons_of_mem _ h)

/-- Size invariant: below the flag the found-set is strictly smaller than
the target list; at the flag it has exactly the target list's length. -/
theorem resultFold_count (targetPrefixes : List String) :
    ∀ (es : List LogMessage) (s : ResultState),
      (s.allFound = true → s.records.length = targetPrefixes.length) →
      (s.allFound = false → s.records.length < targetPrefixes.length) →
      (((es.foldl (resultStep targetPrefixes) s).allFound = true →
          (es.foldl (resultStep targetPrefixes) s).records.length = targetPrefixes.length) ∧
        ((es.foldl (resultStep targetPrefixes) s).allFound = false →
          (es.foldl (resultStep targetPrefixes) s).records.length < targetPrefixes.length)) := by
  intro es
  induction es with
  | nil => intro s h1 h2; exact ⟨h1, h2⟩
  | cons m rest ih =>
    intro s h1 h2
    cases hsf : s.allFound with
    | true =>
      rw [resultFold_of_allFound targetPrefixes (m :: rest) s hsf]
      exact ⟨h1, h2⟩
    | false =>
      cases m with
      | Regular t n pub priv =>
        rw [List.foldl_cons, resultStep_regular]
        exact ih s h1 h2
      | Found t n pub priv p =>
        by_cases hp : p ∈ s.foundSet
        · rw [List.foldl_cons, resultStep_found_dup targetPrefixes s t n pub priv p hp]
          exact ih s h1 h2
        · rw [List.foldl_cons, resultStep_found_fresh targetPrefixes s t n pub priv p hsf hp]
          have hlt : s.records.length < targetPrefixes.length := h2 hsf
          by_cases hlen : targetPrefixes.length ≤ s.records.length + 1
          · rw [if_pos hlen]
            apply ih
            · intro _
              simp only [List.length_append, List.length_cons, List.length_nil]
              omega
            · intro hcontra
              exact absurd hcontra (by simp)
          · rw [if_neg hlen]
            apply ih
            · intro hcontra
              exact absurd hcontra (by simp)
            · intro _
              simp only [List.length_append, List.length_cons, List.length_nil]
              omega

/-- First writer wins: every record of the final state that was not
already present is the record of the first found-event for its prefix. -/
theorem resultFold_first_wins (targetPrefixes : List String) :
    ∀ (es : List LogMessage) (s : ResultState) (r : FoundRecord),
      r ∈ (es.foldl (resultStep targetPrefixes) s).records →
      r ∈ s.records ∨ (FoundRecord.pfx r ∉ s.foundSet ∧
        firstFoundFor (FoundRecord.pfx r) es = some r) := by
  intro es
  induction es with
  | nil => intro s r hr; exact Or.inl hr
  | cons m rest ih =>
    intro s r hr
    cases hsf : s.allFound with
    | true =>
      rw [resultFold_of_allFound targetPrefixes (m :: rest) s hsf] at hr
      exact Or.inl hr
    | false =>
      cases m with
      | Regular t n pub priv =>
        rw [List.foldl_cons, resultStep_regular] at hr
        rcases ih s r hr with h | ⟨h1, h2⟩
        · exact Or.inl h
        · exact Or.inr ⟨h1, by rw [show firstFoundFor (FoundRecord.pfx r)
            (LogMessage.Regular t n pub priv :: rest) =
            firstFoundFor (FoundRecord.pfx r) rest from rfl]; exact h2⟩
      | Found t n pub priv p =>
        by_cases hp : p ∈ s.foundSet
        · rw [List.foldl_cons, resultStep_found_dup targetPrefixes s t n pub priv p hp] at hr
          rcases ih s r hr with h | ⟨h1, h2⟩
          · exact Or.inl h
          · refine Or.inr ⟨h1, ?_⟩
            have hne : p ≠ FoundRecord.pfx r := fun hc => h1 (hc ▸ hp)
            show (if p = FoundRecord.pfx r then some ⟨t, n, pub, priv, p⟩
              else firstFoundFor (FoundRecord.pfx r) rest) = some r
            rw [if_neg hne]
            exact h2
        · rw [List.foldl_cons,
            resultStep_found_fresh targetPrefixes s t n pub priv p hsf hp] at hr
          rcases ih _ r hr with h | ⟨h1, h2⟩
          · rcases List.mem_append.mp h with h2 | h2
            · exact Or.inl h2
            · rw [List.mem_singleton] at h2
              refine Or.inr ⟨?_, ?_⟩
              · rw [h2]
                exact hp
              · show (if p = FoundRecord.pfx r then some ⟨t, n, pub, priv, p⟩
                  else firstFoundFor (FoundRecord.pfx r) rest) = some r
                rw [h2]
                rw [if_pos rfl]
              
          · simp only [ResultState.foundSet, List.map_append, List.map_cons, List.map_nil,
              List.mem_append, List.mem_singleton, not_or] at h1
            obtain ⟨hnotin, hne2⟩ := h1
            have hne : p ≠ FoundRecord.pfx r := fun hc => hne2 hc.symm
            refine Or.inr ⟨hnotin, ?_⟩
            show (if p = FoundRecord.pfx r then some ⟨t, n, pub, priv, p⟩
              else firstFoundFor (FoundRecord.pfx r) rest) = some r
            rw [if_neg hne]
            exact h2

/-- A found-event in a message list contributes its prefix to the list of
found prefixes. -/
theorem mem_foundPfxList (es : List LogMessage) (t : String) (n : Nat)
    (pub priv p : String) (h : (LogMessage.Found t n pub priv p) ∈ es) :
    p ∈ foundPfxList es :=
  List.mem_filterMap.mpr ⟨LogMessage.Found t n pub priv p, h, rfl⟩

/-- Pigeonhole: a duplicate-free list of the same length as `tps` whose
members all lie in `tps` has the same members as `tps`. -/
theorem nodup_subset_full (l tps : List String) (hnd : l.Nodup)
    (hsub : ∀ x ∈ l, x ∈ tps) (hlen : l.length = tps.length) :
    ∀ p, p ∈ tps ↔ p ∈ l := by
  have h1 : l.toFinset ⊆ tps.toFinset := fun x hx =>
    List.mem_toFinset.mpr (hsub x (List.mem_toFinset.mp hx))
  have h2 : l.toFinset.card = l.length := List.toFinset_card_of_nodup hnd
  have h3 : tps.toFinset.card ≤ tps.length := List.toFinset_card_le tps
  have h4 : tps.toFinset.card ≤ l.toFinset.card := by omega
  have h5 : l.toFinset = tps.toFinset := Finset.eq_of_subset_of_card_le h1 h4
  intro p
  constructor
  · intro hptps
    have : p ∈ tps.toFinset := List.mem_toFinset.mpr hptps
    rw [← h5] at this
    exact List.mem_toFinset.mp this
  · intro hpl
    exact hsub p hpl

/-! ## Log-writer invariant -/

/-- Invariant of the rotating attempt-log writer: the private counter
mirrors the current file's line count, the current file is strictly below
the rotation threshold, every rotated-out file has exactly the threshold
number of lines, and the files of the run carry the consecutive
zero-padded indices `0, 1, ..., fileIndex` in order. -/
def LogWF (s : LogWriterState) : Prop :=
  s.lineCount = s.current.lines.length ∧
  s.current.lines.length < MAX_LINES_PER_FILE ∧
  s.current.idx = s.fileIndex ∧
  s.current.fname = logFileName s.fileIndex ∧
  (∀ f ∈ s.closedFiles, f.lines.length = MAX_LINES_PER_FILE) ∧
  List.map LogFile.idx (s.closedFiles ++ [s.current]) = List.range (s.fileIndex + 1) ∧
  List.map LogFile.fname (s.closedFiles ++ [s.current]) =
    List.map logFileName (List.range (s.fileIndex + 1))

theorem logWF_init : LogWF logInit := by
  refine ⟨rfl, by norm_num [logInit, MAX_LINES_PER_FILE], rfl, rfl, ?_, ?_, ?_⟩
  · intro f hf
    simp [logInit] at hf
  · rfl
  · rfl

theorem logWF_writeLine (s : LogWriterState) (content : String) (h : LogWF s) :
    LogWF (logWriteLine s content) := by
  obtain ⟨h1, h2, h3, h4, h5, h6, h7⟩ := h
  unfold logWriteLine
  by_cases hc : MAX_LINES_PER_FILE ≤ s.lineCount + 1
  · rw [if_pos hc]
    refine ⟨rfl, by norm_num [logRotate, MAX_LINES_PER_FILE], rfl, rfl, ?_, ?_, ?_⟩
    · intro f hf
      simp only [logRotate, List.mem_append, List.mem_singleton] at hf
      rcases hf with hf | hf
      · exact h5 f hf
      · rw [hf]
        simp only [List.length_append, List.length_cons, List.length_nil]
        omega
    · have h6b : List.map LogFile.idx s.closedFiles ++ [s.current.idx] =
          List.range (s.fileIndex + 1) := by
        simpa using h6
      simp only [logRotate, List.map_append, List.map_cons, List.map_nil,
        List.range_succ (n := s.fileIndex + 1)]
      rw [h6b, List.range_succ]
    · have h7b : List.map LogFile.fname s.closedFiles ++ [s.current.fname] =
          List.map logFileName (List.range (s.fileIndex + 1)) := by
        simpa using h7
      simp only [logRotate, List.map_append, List.map_cons, List.map_nil,
        List.range_succ (n := s.fileIndex + 1)]
      rw [h7b, List.range_succ, List.map_append]
  · rw [if_neg hc]
    refine ⟨?_, ?_, h3, h4, h5, ?_, ?_⟩
    · simp [h1]
    · simp only [List.length_append, List.length_cons, List.length_nil]
      omega
    · simpa using h6
    · simpa using h7

theorem logWF_step (s : LogWriterState) (m : LogMessage) (h : LogWF s) :
    LogWF (logThreadStep s m) := by
  cases m with
  | Regular t n pub priv => exact logWF_writeLine s _ h
  | Found t n pub priv p => exact h

theorem logWF_fold : ∀ (msgs : List LogMessage) (s : LogWriterState), LogWF s →
    LogWF (msgs.foldl logThreadStep s) := by
  intro msgs
  induction msgs with
  | nil => intro s h; exact h
  | cons m rest ih =>
    intro s h
    rw [List.foldl_cons]
    exact ih _ (logWF_step s m h)

theorem logWF_run (msgs : List LogMessage) : LogWF (logThreadRun msgs) :=
  logWF_fold msgs logInit logWF_init

/-! ## Fallible result-writer lemmas -/

theorem rwRun_regular (targetPrefixes : List String) (io : Nat → Bool) (s : ResultState)
    (t : String) (n : Nat) (pub priv : String) (rest : List LogMessage) :
    rwRun targetPrefixes io s (.Regular t n pub priv :: rest) =
      rwRun targetPrefixes io s rest := rfl

theorem rwRun_found (targetPrefixes : List String) (io : Nat → Bool) (s : ResultState)
    (t : String) (n : Nat) (pub priv p : String) (rest : List LogMessage) :
    rwRun targetPrefixes io s (.Found t n pub priv p :: rest) =
      (if p ∈ s.foundSet then rwRun targetPrefixes io s rest
       else if io s.records.length then
         (if targetPrefixes.length ≤ (s.records ++ [(⟨t, n, pub, priv, p⟩ : FoundRecord)]).length then
            .ok { records := s.records ++ [⟨t, n, pub, priv, p⟩], allFound := true }
          else rwRun targetPrefixes io
            { records := s.records ++ [⟨t, n, pub, priv, p⟩], allFound := false } rest)
       else .error ()) := rfl

/-- When every write succeeds, the fallible loop returns `Ok` of exactly
the state the pure fold computes. -/
theorem rwRun_ok (targetPrefixes : List String) (io : Nat → Bool) (hio : ∀ k, io k = true) :
    ∀ (es : List LogMessage) (s : ResultState), s.allFound = false →
      rwRun targetPrefixes io s es = .ok (es.foldl (resultStep targetPrefixes) s) := by
  intro es
  induction es with
  | nil => intro s _; rfl
  | cons m rest ih =>
    intro s hsf
    cases m with
    | Regular t n pub priv =>
      rw [rwRun_regular, List.foldl_cons, resultStep_regular]
      exact ih s hsf
    | Found t n pub priv p =>
      rw [rwRun_found, List.foldl_cons]
      by_cases hp : p ∈ s.foundSet
      · rw [if_pos hp, resultStep_found_dup targetPrefixes s t n pub priv p hp]
        exact ih s hsf
      · rw [if_neg hp, resultStep_found_fresh targetPrefixes s t n pub priv p hsf hp,
          hio s.records.length, if_pos rfl]
        by_cases hlen : targetPrefixes.length ≤ (s.records ++ [(⟨t, n, pub, priv, p⟩ : FoundRecord)]).length
        · rw [if_pos hlen]
          have hlen2 : targetPrefixes.length ≤ s.records.length + 1 := by simpa using hlen
          rw [if_pos hlen2, resultFold_of_allFound targetPrefixes rest _ rfl]
        · rw [if_neg hlen]
          have hlen2 : ¬ targetPrefixes.length ≤ s.records.length + 1 := by simpa using hlen
          rw [if_neg hlen2]
          exact ih _ rfl

/-- A failing `write_result` is fatal: if the first write the oracle fails
is among the writes the run performs, the whole loop returns the error
(there is no retry and no recovery). -/
theorem rwRun_error (targetPrefixes : List String) (io : Nat → Bool) (k : Nat)
    (hk : io k = false) (hlt : ∀ j, j < k → io j = true) :
    ∀ (es : List LogMessage) (s : ResultState), s.allFound = false →
      s.records.length ≤ k →
      k < (es.foldl (resultStep targetPrefixes) s).records.length →
      rwRun targetPrefixes io s es = .error () := by
  intro es
  induction es with
  | nil =>
    intro s _ hle hcnt
    exact absurd hcnt (Nat.not_lt.mpr hle)
  | cons m rest ih =>
    intro s hsf hle hcnt
    cases m with
    | Regular t n pub priv =>
      rw [rwRun_regular]
      rw [List.foldl_cons, resultStep_regular] at hcnt
      exact ih s hsf hle hcnt
    | Found t n pub priv p =>
      rw [rwRun_found]
      by_cases hp : p ∈ s.foundSet
      · rw [if_pos hp]
        rw [List.foldl_cons, resultStep_found_dup targetPrefixes s t n pub priv p hp] at hcnt
        exact ih s hsf hle hcnt
      · rw [if_neg hp]
        rcases Nat.lt_or_ge s.records.length k with hlt2 | hge
        · rw [hlt s.records.length hlt2, if_pos rfl]
          rw [List.foldl_cons,
            resultStep_found_fresh targetPrefixes s t n pub priv p hsf hp] at hcnt
          by_cases hlen : targetPrefixes.length ≤ (s.records ++ [(⟨t, n, pub, priv, p⟩ : FoundRecord)]).length
          · exfalso
            have hlen2 : targetPrefixes.length ≤ s.records.length + 1 := by simpa using hlen
            rw [if_pos hlen2, resultFold_of_allFound targetPrefixes rest _ rfl] at hcnt
            simp only [List.length_append, List.length_cons, List.length_nil] at hcnt
            omega
          · rw [if_neg hlen]
            have hlen2 : ¬ targetPrefixes.length ≤ s.records.length + 1 := by simpa using hlen
            rw [if_neg hlen2] at hcnt
            apply ih _ rfl ?_ hcnt
            simp only [List.length_append, List.length_cons, List.length_nil]
            omega
        · have hik : s.records.length = k := Nat.le_antisymm hle hge
          rw [hik, hk, if_neg Bool.false_ne_true]

/-! ## Claim theorems -/

/-- C2: for every generated candidate, the worker scans the target-prefix
list in list order and attributes the candidate to the first prefix the
public address starts with, stopping the scan there; a candidate whose
address matches two listed prefixes is attributed only to the earlier one
in list order, and exactly one found-event (the worker's single emission,
carrying that earlier prefix) is sent on the result channel. -/
theorem claim_C2 (pre post : List String) (p : String) (c : Candidate)
    (hpre : ∀ q ∈ pre, strStartsWith c.publicKey q = false)
    (hp : strStartsWith c.publicKey p = true) :
    workerProcess (pre ++ p :: post) c =
      .toResult (.Found c.timeStr c.counter c.publicKey c.privateKey p) := by
  unfold workerProcess
  rw [firstMatch_append pre post c.publicKey p hpre hp]

/-- C2 witness: the spec's scenario, list `["ab", "abc"]` and an address
matching both entries is attributed to `"ab"` only. -/
theorem claim_C2_witness :
    workerProcess ["ab", "abc"] ⟨"t", 7, "abcQ", "sk"⟩ =
      .toResult (.Found "t" 7 "abcQ" "sk" "ab") :=
  claim_C2 [] ["abc"] "ab" ⟨"t", 7, "abcQ", "sk"⟩
    (fun q hq => absurd hq (List.not_mem_nil q)) (by decide)

/-- C3: across the whole run at most one record exists per distinct prefix
value: a found-event whose prefix is already in the found-set is discarded
silently leaving the state unchanged, the recorded prefixes are pairwise
distinct, and each record is the one carried by the first received
found-event for its prefix. -/
theorem claim_C3 (targetPrefixes : List String) (es : List LogMessage)
    (s : ResultState) (t : String) (n : Nat) (pub priv p : String) :
    (p ∈ s.foundSet → resultStep targetPrefixes s (.Found t n pub priv p) = s) ∧
    (List.map FoundRecord.pfx (resultRun targetPrefixes es).records).Nodup ∧
    (∀ r ∈ (resultRun targetPrefixes es).records,
      firstFoundFor (FoundRecord.pfx r) es = some r) := by
  refine ⟨fun hp => resultStep_found_dup targetPrefixes s t n pub priv p hp, ?_, ?_⟩
  · exact resultFold_nodup targetPrefixes es resultInit (by simp [resultInit])
  · intro r hr
    rcases resultFold_first_wins targetPrefixes es resultInit r hr with hin | ⟨_, h2⟩
    · simp [resultInit] at hin
    · exact h2

/-- C3 witness: with two events for prefix `"aa"`, the single record is
the one carried by the first event. -/
theorem claim_C3_witness :
    firstFoundFor "aa" [LogMessage.Found "t" 1 "aaX" "k" "aa",
      LogMessage.Found "u" 2 "aaY" "j" "aa"] = some ⟨"t", 1, "aaX", "k", "aa"⟩ :=
  (claim_C3 ["aa"] [LogMessage.Found "t" 1 "aaX" "k" "aa",
    LogMessage.Found "u" 2 "aaY" "j" "aa"] resultInit "x" 0 "" "" "").2.2
    ⟨"t", 1, "aaX", "k", "aa"⟩ (by decide)

/-- C4: for every run of the log writer, every rotated-out attempt log
file has exactly 1,000,000 lines, the current file is strictly below that
bound (rotation happens exactly at the boundary, opening a fresh file and
resetting the counter, which always equals the current file's line
count), and the files carry consecutive indices `0, 1, ..., fileIndex`. -/
theorem claim_C4 (msgs : List LogMessage) :
    (∀ f ∈ (logThreadRun msgs).closedFiles, f.lines.length = MAX_LINES_PER_FILE) ∧
    (logThreadRun msgs).current.lines.length < MAX_LINES_PER_FILE ∧
    (logThreadRun msgs).lineCount = (logThreadRun msgs).current.lines.length ∧
    List.map LogFile.idx ((logThreadRun msgs).closedFiles ++ [(logThreadRun msgs).current]) =
      List.range ((logThreadRun msgs).fileIndex + 1) := by
  obtain ⟨h1, h2, h3, h4, h5, h6, h7⟩ := logWF_run msgs
  exact ⟨h5, h2, h1, h6⟩

/-- C4 witness: after one written line the current file is below the
rotation threshold. -/
theorem claim_C4_witness :
    (logThreadRun [LogMessage.Regular "t" 1 "pk" "sk"]).current.lines.length <
      MAX_LINES_PER_FILE :=
  (claim_C4 [LogMessage.Regular "t" 1 "pk" "sk"]).2.1

/-- C5: as long as the shared `u64` counter does not wrap (at most `2^64`
attempts), the sequence values assigned by the `n` atomic increments of a
run are one per generation attempt, pairwise distinct and bounded by the
number of attempts; and every candidate's single emitted message, on
either channel, carries exactly the candidate's sequence number, so the
sequence numbers of all attempt entries and found records together are
those pairwise-distinct values. -/
theorem claim_C5 (n : Nat) (hn : n ≤ U64MOD) (targetPrefixes : List String)
    (cands : List Candidate) :
    (seqValues 0 n).length = n ∧
    (seqValues 0 n).Nodup ∧
    (∀ v ∈ seqValues 0 n, v ≤ n) ∧
    List.map (fun c => emissionSeq (workerProcess targetPrefixes c)) cands =
      List.map Candidate.counter cands := by
  have hmap := seqValues_eq_map n 0
  have hM : U64MOD = 18446744073709551616 := by norm_num [U64MOD]
  rw [hM] at hn
  refine ⟨?_, ?_, ?_, ?_⟩
  · rw [hmap]
    simp
  · rw [hmap]
    apply List.Nodup.map_on ?_ (List.nodup_range n)
    intro k1 h1 k2 h2 heq
    rw [List.mem_range] at h1 h2
    rw [hM] at heq
    omega
  · intro v hv
    rw [hmap] at hv
    rcases List.mem_map.mp hv with ⟨k, hk, hvk⟩
    rw [List.mem_range] at hk
    rw [hM] at hvk
    omega
  · exact List.map_congr_left (fun c _ => emissionSeq_workerProcess targetPrefixes c)

/-- C5 witness: three attempts assign the distinct values 1, 2, 3. -/
theorem claim_C5_witness :
    (seqValues 0 3).length = 3 ∧ (seqValues 0 3).Nodup :=
  ⟨(claim_C5 3 (by norm_num [U64MOD]) [] []).1,
   (claim_C5 3 (by norm_num [U64MOD]) [] []).2.1⟩

/-- C6: the `allFound` flag never goes back from true to false — once set,
the result writer consumes nothing further (every later step leaves the
state unchanged, so the whole remaining fold is the identity and buffered
events are never drained or persisted); when the flag is set from a run
started below the flag, the found-set has exactly the full cardinality of
the target list; and a worker, reading the flag once per iteration, exits
at its first true read, processing exactly the iterations that saw a
false flag. -/
theorem claim_C6 (targetPrefixes : List String) (es : List LogMessage) (s : ResultState)
    (m : LogMessage) (gen : Nat → Candidate) (i : Nat) (pre post : List Bool) :
    (s.allFound = true → resultStep targetPrefixes s m = s) ∧
    (s.allFound = true → es.foldl (resultStep targetPrefixes) s = s) ∧
    (0 < targetPrefixes.length → (resultRun targetPrefixes es).allFound = true →
      (resultRun targetPrefixes es).records.length = targetPrefixes.length) ∧
    ((∀ b ∈ pre, b = false) →
      workerGo targetPrefixes gen i (pre ++ true :: post) =
        workerGo targetPrefixes gen i (pre ++ [true]) ∧
      (workerGo targetPrefixes gen i (pre ++ true :: post)).length = pre.length) := by
  refine ⟨resultStep_of_allFound targetPrefixes s m,
    resultFold_of_allFound targetPrefixes es s, ?_,
    workerGo_stops targetPrefixes gen pre i post⟩
  intro hpos hall
  exact (resultFold_count targetPrefixes es resultInit
    (fun hc => absurd hc (by simp [resultInit]))
    (fun _ => by simpa [resultInit] using hpos)).1 hall

/-- C6 witness: with a single target found, the flag is set with the
found-set at full cardinality one. -/
theorem claim_C6_witness :
    (resultRun ["a"] [LogMessage.Found "t" 1 "aX" "k" "a"]).records.length = 1 :=
  (claim_C6 ["a"] [LogMessage.Found "t" 1 "aX" "k" "a"] resultInit
    (LogMessage.Regular "" 0 "" "") (fun _ => ⟨"", 0, "", ""⟩) 0 [] []).2.2.1
    (by decide) (by decide)

/-- C7: if the channel closes (the event list is exhausted) before all
prefixes are found and no write fails, the result writer returns `Ok` of
the fold's final state, whose termination flag is still unset; and if the
oracle fails some write that the run performs (all earlier writes
succeeding), the writer returns the error immediately with no retry. -/
theorem claim_C7 (targetPrefixes : List String) (es : List LogMessage)
    (io : Nat → Bool) (k : Nat) :
    ((∀ j, io j = true) → (resultRun targetPrefixes es).allFound = false →
      rwRun targetPrefixes io resultInit es = .ok (resultRun targetPrefixes es) ∧
      (resultRun targetPrefixes es).allFound = false) ∧
    ((∀ j, j < k → io j = true) → io k = false →
      k < (resultRun targetPrefixes es).records.length →
      rwRun targetPrefixes io resultInit es = .error ()) := by
  constructor
  · intro hio hnot
    exact ⟨rwRun_ok targetPrefixes io hio es resultInit rfl, hnot⟩
  · intro hlt hk hcnt
    exact rwRun_error targetPrefixes io k hk hlt es resultInit rfl (Nat.zero_le k) hcnt

/-- C7 witness: one of two targets found, channel closes, writer returns
`Ok` with the flag unset. -/
theorem claim_C7_witness :
    rwRun ["a", "b"] (fun _ => true) resultInit [LogMessage.Found "t" 1 "bX" "k" "b"] =
      .ok (resultRun ["a", "b"] [LogMessage.Found "t" 1 "bX" "k" "b"]) :=
  ((claim_C7 ["a", "b"] [LogMessage.Found "t" 1 "bX" "k" "b"] (fun _ => true) 0).1
    (fun _ => rfl) (by decide)).1

/-- C8: a worker emits a found-event for a prefix only when the public
address really starts with it, and consequently, when every received
found-event is well formed in that sense, every persisted record's public
address starts with its recorded prefix. -/
theorem claim_C8 (targetPrefixes : List String) (es : List LogMessage) (c : Candidate)
    (t : String) (n : Nat) (pub priv p : String) :
    (workerProcess targetPrefixes c = .toResult (.Found t n pub priv p) →
      strStartsWith pub p = true) ∧
    ((∀ m ∈ es, eventOk m = true) →
      ∀ r ∈ (resultRun targetPrefixes es).records,
        strStartsWith (FoundRecord.publicKey r) (FoundRecord.pfx r) = true) := by
  constructor
  · intro h
    unfold workerProcess at h
    cases hfm : firstMatch targetPrefixes c.publicKey with
    | none =>
      rw [hfm] at h
      exact Emission.noConfusion h
    | some q =>
      rw [hfm] at h
      have hq := firstMatch_startsWith targetPrefixes c.publicKey q hfm
      injection h with hmsg
      injection hmsg with e1 e2 e3 e4 e5
      rw [← e3, ← e5]
      exact hq
  · intro h r hr
    rcases resultFold_origin targetPrefixes es resultInit r hr with hin | hev
    · simp [resultInit] at hin
    · exact h _ hev

/-- C8 witness: an address starting with the recorded prefix, via the
worker emission direction. -/
theorem claim_C8_witness :
    strStartsWith "aaX" "aa" = true :=
  (claim_C8 ["aa"] [] ⟨"t", 1, "aaX", "k"⟩ "t" 1 "aaX" "k" "aa").1 (by decide)

/-- C10: a candidate whose address matches some listed prefix produces a
single emission, and it goes to the result channel (so nothing is sent to
the attempt log for it); the log-writer ignores found-events outright;
and a found-event for an already-found prefix leaves the result state
unchanged, so such a candidate leaves no persisted trace in any output
file. -/
theorem claim_C10 (targetPrefixes : List String) (c : Candidate) (s : ResultState)
    (ls : LogWriterState) (t : String) (n : Nat) (pub priv p : String) :
    ((∃ q ∈ targetPrefixes, strStartsWith c.publicKey q = true) →
      ∃ q, workerProcess targetPrefixes c =
        .toResult (.Found c.timeStr c.counter c.publicKey c.privateKey q)) ∧
    (logThreadStep ls (.Found t n pub priv p) = ls) ∧
    (p ∈ s.foundSet → resultStep targetPrefixes s (.Found t n pub priv p) = s) := by
  refine ⟨?_, rfl, fun hp => resultStep_found_dup targetPrefixes s t n pub priv p hp⟩
  rintro ⟨q, hq, hsw⟩
  rcases firstMatch_isSome_of_mem targetPrefixes c.publicKey q hq hsw with ⟨q2, hq2⟩
  refine ⟨q2, ?_⟩
  unfold workerProcess
  rw [hq2]

/-- C10 witness: a duplicate found-event for an already-found prefix
leaves the result-writer state unchanged. -/
theorem claim_C10_witness :
    resultStep ["aa"] ⟨[⟨"t", 1, "aaX", "k", "aa"⟩], false⟩
      (LogMessage.Found "u" 2 "aaY" "j" "aa") = ⟨[⟨"t", 1, "aaX", "k", "aa"⟩], false⟩ :=
  (claim_C10 ["aa"] ⟨"t", 1, "aaX", "k"⟩ ⟨[⟨"t", 1, "aaX", "k", "aa"⟩], false⟩
    logInit "u" 2 "aaY" "j" "aa").2.2 (by decide)

/-- C1 counterexample: with the duplicate target list `["aa", "aa"]`,
every prefix in the list (both entries equal `"aa"`) is matched by a
received found-event, yet the termination flag is never set — the found
set is compared against the list's length 2, which the set of distinct
prefixes can never reach — and the result file holds one line, not one
line per target-prefix entry. -/
theorem claim_C1_counterexample :
    ("aa" ∈ foundPfxList [LogMessage.Found "t" 1 "aaX" "k" "aa",
      LogMessage.Found "u" 2 "aaY" "j" "aa"]) ∧
    (resultRun ["aa", "aa"] [LogMessage.Found "t" 1 "aaX" "k" "aa",
      LogMessage.Found "u" 2 "aaY" "j" "aa"]).allFound = false ∧
    (resultRun ["aa", "aa"] [LogMessage.Found "t" 1 "aaX" "k" "aa",
      LogMessage.Found "u" 2 "aaY" "j" "aa"]).records.length = 1 ∧
    (["aa", "aa"] : List String).length = 2 := by
  decide

/-- C1 amended: provided every received found-event carries a prefix of
the target list (what workers guarantee), the run terminates if and only
if the list is nonempty and the number of distinct prefixes attributed by
received found-events reaches the length of the target-prefix list — for
a duplicate-free list this is exactly "every prefix has been matched",
while a list with repeated entries can never terminate; and when the run
terminates the result file contains exactly one line per target prefix
(one record per distinct prefix, jointly exhausting the list). -/
theorem claim_C1_amended (targetPrefixes : List String) (es : List LogMessage)
    (h : ∀ q ∈ foundPfxList es, q ∈ targetPrefixes) :
    ((resultRun targetPrefixes es).allFound = true ↔
      0 < targetPrefixes.length ∧
      targetPrefixes.length ≤ distinctCount (foundPfxList es)) ∧
    ((resultRun targetPrefixes es).allFound = true →
      (resultRun targetPrefixes es).records.length = targetPrefixes.length ∧
      (List.map FoundRecord.pfx (resultRun targetPrefixes es).records).Nodup ∧
      (∀ q, q ∈ targetPrefixes ↔
        q ∈ List.map FoundRecord.pfx (resultRun targetPrefixes es).records)) := by
  have hiff : (resultRun targetPrefixes es).allFound = true ↔
      1 ≤ distinctCount (foundPfxList es) ∧
      targetPrefixes.length ≤ 0 + distinctCount (foundPfxList es) :=
    resultFold_allFound_iff targetPrefixes es resultInit rfl
  rw [Nat.zero_add] at hiff
  have hpos_of : (resultRun targetPrefixes es).allFound = true →
      0 < targetPrefixes.length := by
    intro hall
    obtain ⟨h1, _⟩ := hiff.mp hall
    rcases Nat.eq_zero_or_pos targetPrefixes.length with h0 | hpos
    · exfalso
      have htps : targetPrefixes = [] := List.length_eq_zero.mp h0
      have hfpl : foundPfxList es = [] := by
        cases hfl : foundPfxList es with
        | nil => rfl
        | cons q qs =>
          have hqin : q ∈ targetPrefixes := h q (by rw [hfl]; exact List.mem_cons_self q qs)
          rw [htps] at hqin
          exact absurd hqin (List.not_mem_nil q)
      rw [hfpl] at h1
      exact absurd h1 (by norm_num [distinctCount, countFresh])
    · exact hpos
  constructor
  · constructor
    · intro hall
      exact ⟨hpos_of hall, (hiff.mp hall).2⟩
    · rintro ⟨hpos, hdc⟩
      exact hiff.mpr ⟨by omega, hdc⟩
  · intro hall
    have hpos := hpos_of hall
    have hlen : (resultRun targetPrefixes es).records.length = targetPrefixes.length :=
      (resultFold_count targetPrefixes es resultInit
        (fun hc => absurd hc (by simp [resultInit]))
        (fun _ => by simpa [resultInit] using hpos)).1 hall
    have hnodup : (List.map FoundRecord.pfx (resultRun targetPrefixes es).records).Nodup :=
      resultFold_nodup targetPrefixes es resultInit (by simp [resultInit])
    have hsub : ∀ x ∈ List.map FoundRecord.pfx (resultRun targetPrefixes es).records,
        x ∈ targetPrefixes := by
      intro x hx
      rcases List.mem_map.mp hx with ⟨r, hr, hrx⟩
      rcases resultFold_origin targetPrefixes es resultInit r hr with hin | hev
      · simp [resultInit] at hin
      · have hmem := mem_foundPfxList es r.timeStr r.counter r.publicKey r.privateKey
          r.pfx hev
        rw [← hrx]
        exact h _ hmem
    exact ⟨hlen, hnodup, nodup_subset_full _ targetPrefixes hnodup hsub
      (by rw [List.length_map, hlen])⟩

/-- C1 witness: both targets of a duplicate-free list matched, the
termination flag is set. -/
theorem claim_C1_amended_witness :
    (resultRun ["a", "b"] [LogMessage.Found "t" 1 "aX" "k" "a",
      LogMessage.Found "u" 2 "bY" "j" "b"]).allFound = true :=
  ((claim_C1_amended ["a", "b"] [LogMessage.Found "t" 1 "aX" "k" "a",
    LogMessage.Found "u" 2 "bY" "j" "b"] (by decide)).1).mpr (by decide)

/-- C9 counterexample: a concrete attempt-log line produced by the code
does not have the spec's claimed literal format — the code labels the
fields `序号`, `公钥`, `私钥` (and `匹配前缀` in the result file), not
`sequence`, `public`, `private`: no choice of timestamp, sequence number
and key strings can make the claimed format produce this line, because
the claimed format always contains the literal text `] sequence: `. -/
theorem claim_C9_counterexample :
    ¬ claimedRegularFormat (renderRegularLine "t" 1 "a" "b") := by
  rintro ⟨t2, pub2, priv2, n2, hEq⟩
  have hdata := congrArg String.data hEq
  simp only [String.data_append] at hdata
  have hinf : "] sequence: ".data <:+: (renderRegularLine "t" 1 "a" "b").data := by
    rw [hdata]
    exact ⟨"[".data ++ t2.data,
      (toString n2).data ++ " | public: ".data ++ pub2.data ++ " | private: ".data ++
        priv2.data, by simp [List.append_assoc]⟩
  exact absurd hinf (by decide)

/-- C9 amended: every attempt-log line has the shape
`[timestamp] 序号: N | 公钥: ADDR | 私钥: ENC` and every result-file line
the shape `[timestamp] [FOUND] 匹配前缀: P | 序号: N | 公钥: ADDR | 私钥: ENC`
(the structure the spec describes, with Chinese field labels in place of
`sequence`/`public`/`private`/`prefix`), and the attempt-log files of any
run are named `keypairs_NNNN.log` with consecutive ascending zero-padded
indices. -/
theorem claim_C9_amended (t : String) (n : Nat) (pub priv : String) (r : FoundRecord)
    (msgs : List LogMessage) (i : Nat) :
    renderRegularLine t n pub priv =
      "[" ++ t ++ "] 序号: " ++ toString n ++ " | 公钥: " ++ pub ++ " | 私钥: " ++ priv ∧
    renderFoundLine r =
      "[" ++ r.timeStr ++ "] [FOUND] 匹配前缀: " ++ r.pfx ++ " | 序号: " ++
        toString r.counter ++ " | 公钥: " ++ r.publicKey ++ " | 私钥: " ++ r.privateKey ∧
    logFileName i = "keypairs_" ++ pad4 i ++ ".log" ∧
    List.map LogFile.fname
        ((logThreadRun msgs).closedFiles ++ [(logThreadRun msgs).current]) =
      List.map logFileName (List.range ((logThreadRun msgs).fileIndex + 1)) := by
  refine ⟨rfl, rfl, rfl, ?_⟩
  obtain ⟨_, _, _, _, _, _, h7⟩ := logWF_run msgs
  exact h7
